import Mathlib

/-!
# Verification of the external sort engine (`sort.py`)

This file embeds the external merge sort of `sort.py` as executable Lean
definitions and proves the specification's claims about it.

Modelling conventions:
* a byte is a `Nat`; a record / line is a `List Nat`; the newline delimiter
  is byte `10`;
* iterating a binary input stream yields lines: every line ends with the
  delimiter except possibly the last fragment, and no line contains an
  interior delimiter (`validRecord` below);
* `bytes` comparison in Python is strict byte-wise lexicographic order,
  embedded as `bytesLt`;
* the `while True` chunk loop, the `heapq.merge` loop and the `finally`
  cleanup loop are embedded as structurally recursive functions with an
  explicit fuel bound (the loops consume at least one element per
  iteration, so `input.length + 1` resp. the total number of buffered
  records is always enough fuel, which the lemmas below establish);
* I/O faults (a failing segment write, a failing `unlink`, a failing
  removal of the temporary directory) are injected through a `Faults`
  oracle so that the error and cleanup paths of `sort` are part of the
  model.
-/

namespace ExtSort

/-- A byte. -/
abbrev Byte := Nat

/-- Strict byte-wise lexicographic comparison of byte strings, Python's
`<` on `bytes` values. -/
def bytesLt : List Byte → List Byte → Bool
  | [], [] => false
  | [], _ :: _ => true
  | _ :: _, [] => false
  | a :: as, b :: bs => if a < b then true else if b < a then false else bytesLt as bs

/-- Non-strict byte-wise order as a boolean: `a ≤ b` iff `¬ (b < a)`.
This is the order under which Python's `list.sort` and `heapq.merge`
arrange `bytes` values. -/
def bleB (a b : List Byte) : Bool := !(bytesLt b a)

/-- Non-strict byte-wise order as a proposition. -/
def ble (a b : List Byte) : Prop := bleB a b = true

instance : DecidableRel ble := fun a b => by unfold ble; infer_instance

/-- The shape of a delimiter-terminated line produced by splitting a byte
stream at newlines: it ends with byte `10` and contains no interior `10`. -/
def validRecord (l : List Byte) : Prop :=
  l.getLast? = some 10 ∧ 10 ∉ l.dropLast

instance : DecidablePred validRecord := fun l => by unfold validRecord; infer_instance

/-- Spec-side definition, written from the spec's words for comparison with
the code: "ordering is defined as byte-wise lexicographic comparison of the
content (delimiter excluded from comparison)" — strict comparison of two
records after removing the trailing delimiter byte. -/
def specContentLt (a b : List Byte) : Bool := bytesLt a.dropLast b.dropLast

/-- Error causes of one `sort` invocation: the failed
`assert line.endswith(b'\n')` (line 32 of `sort.py`), or an injected I/O
failure while writing segment `seq`. -/
inductive SortErr
  | malformed
  | ioWrite (seq : Nat)
deriving DecidableEq

instance : DecidableEq (Except SortErr (List (List Byte))) := fun a b =>
  match a, b with
  | .ok x, .ok y => decidable_of_iff (x = y) (by simp)
  | .error e, .error e' => decidable_of_iff (e = e') (by simp)
  | .ok _, .error _ => .isFalse (by simp)
  | .error _, .ok _ => .isFalse (by simp)

/-- Fault-injection oracle: which segment writes fail, which segment
unlinks fail, and whether removing the temporary directory fails. -/
structure Faults where
  writeFail : Nat → Bool
  unlinkFail : Nat → Bool
  rmdirFail : Bool

/-- The fault-free oracle. -/
def noFaults : Faults := ⟨fun _ => false, fun _ => false, false⟩

/-- The inner `for line in input_stream` loop of `sort` (lines 30–35):
starting from the already accumulated `chunk`, append lines — asserting
that each ends with the delimiter — until the chunk reaches the threshold
`T` or the input is exhausted.  Returns the accumulated chunk and the
unconsumed rest of the input, or an error if the assertion fails. -/
def fillChunk (T : Nat) : List (List Byte) → List (List Byte) →
    Except Unit (List (List Byte) × List (List Byte))
  | chunk, [] => .ok (chunk, [])
  | chunk, line :: rest =>
    if line.getLast? = some 10 then
      if T ≤ (chunk ++ [line]).length then .ok (chunk ++ [line], rest)
      else fillChunk T (chunk ++ [line]) rest
    else .error ()

/-- Phase one of `sort` (lines 29–43): the `while True` loop.  Each
iteration accumulates a chunk, stops if it is empty, sorts it
(`chunk.sort()` is Python's stable sort under `<` on `bytes`; it is
embedded as `List.insertionSort ble`, which produces the same list:
sorted permutations of a list of byte strings are unique), registers
the next sequence number in `temp_files` *before* writing, and writes the
segment (which may fail per the fault oracle).  Returns the registered
sequence numbers, the contents of the successfully written segments in
order, and the error that aborted the loop, if any.  `fuel` bounds the
number of iterations; `input.length + 1` is always sufficient. -/
def phase1 (T : Nat) (f : Faults) : Nat → List (List Byte) → Nat →
    List Nat × List (List (List Byte)) × Option SortErr
  | 0, _, _ => ([], [], none)
  | fuel + 1, input, seq =>
    match fillChunk T [] input with
    | .error _ => ([], [], some .malformed)
    | .ok (chunk, rest) =>
      if chunk.isEmpty then ([], [], none)
      else if f.writeFail seq then ([seq], [], some (.ioWrite seq))
      else
        let r := phase1 T f fuel rest (seq + 1)
        (seq :: r.1, chunk.insertionSort ble :: r.2.1, r.2.2)

/-- The index (into the list of open segment readers) holding the smallest
frontier record, together with that record; among equal frontier records
the smallest index wins.  Readers that are exhausted are skipped.  This is
the selection rule of `heapq.merge`, whose heap keys are (record value,
iterator order). -/
def selectMin : List (List (List Byte)) → Option (Nat × List Byte)
  | [] => none
  | [] :: rest => (selectMin rest).map fun p => (p.1 + 1, p.2)
  | (r :: _) :: rest =>
    match selectMin rest with
    | none => some (0, r)
    | some (j, v) => if bytesLt v r then some (j + 1, v) else some (0, r)

/-- Advance reader `j`: drop the frontier record of the `j`-th reader. -/
def popAt : List (List (List Byte)) → Nat → List (List (List Byte))
  | [], _ => []
  | l :: rest, 0 => l.tail :: rest
  | l :: rest, j + 1 => l :: popAt rest j

/-- The `heapq.merge` loop (line 49), tagged with provenance: repeatedly
select the reader with the smallest frontier record (ties to the smallest
segment sequence number), emit `(reader index, record)`, and advance that
reader.  `fuel` bounds the number of emitted records; the total number of
buffered records is always sufficient. -/
def kMergeAux (fuel : Nat) (readers : List (List (List Byte))) :
    List (Nat × List Byte) :=
  match fuel with
  | 0 => []
  | fuel + 1 =>
    match selectMin readers with
    | none => []
    | some (j, v) => (j, v) :: kMergeAux fuel (popAt readers j)

/-- Provenance-annotated k-way merge of the segment contents. -/
def kMergeTagged (readers : List (List (List Byte))) : List (Nat × List Byte) :=
  kMergeAux ((readers.map List.length).sum) readers

/-- The record stream written to the output sink by the merge phase. -/
def kMerge (readers : List (List (List Byte))) : List (List Byte) :=
  (kMergeTagged readers).map Prod.snd

/-- The `finally` cleanup loop of `sort` (lines 55–60): attempt to unlink
every registered path in order; a failing unlink (per the fault oracle) is
caught and logged and the loop continues.  Returns the attempted paths and
the logged failures. -/
def cleanupLoop (f : Faults) : List Nat → List Nat × List Nat
  | [] => ([], [])
  | p :: rest =>
    let r := cleanupLoop f rest
    (p :: r.1, if f.unlinkFail p then p :: r.2 else r.2)

/-- Observable outcome of one `sort` invocation. -/
structure RunOutcome where
  result : Except SortErr (List (List Byte))
  created : List Nat
  unlinkAttempts : List Nat
  loggedFailures : List Nat

/-- One invocation of `sort(input_stream, output_stream, temp_dir)`
(lines 25–60) under the fault oracle `f`: run phase one; if it succeeded,
merge all segments into the output; in all cases run the `finally` cleanup
loop over every registered path.  The phase-one error, if any, propagates
as the result; cleanup failures never change the result. -/
def sortWithFaults (T : Nat) (f : Faults) (input : List (List Byte)) :
    RunOutcome :=
  let r := phase1 T f (input.length + 1) input 0
  let cl := cleanupLoop f r.1
  { result :=
      match r.2.2 with
      | some e => .error e
      | none => .ok (kMerge r.2.1)
    created := r.1
    unlinkAttempts := cl.1
    loggedFailures := cl.2 }

/-- Observable outcome of one `main` invocation. -/
structure MainOutcome where
  run : RunOutcome
  dirDeleteAttempted : Bool
  dirDeleteLogged : Bool
  result : Except SortErr (List (List Byte))

/-- Modelled from the spec: `main` (lines 16–22) wraps `sort` in a
`TemporaryDirectory` scope; the context manager is standard-library code,
not part of this repository.  Per the spec, on every exit path removal of
the temporary directory is attempted after `sort`'s own per-segment
cleanup, and a directory-deletion failure is logged and non-fatal: it
neither changes the result nor suppresses a propagating error. -/
def mainWithFaults (T : Nat) (f : Faults) (input : List (List Byte)) :
    MainOutcome :=
  let r := sortWithFaults T f input
  { run := r
    dirDeleteAttempted := true
    dirDeleteLogged := f.rmdirFail
    result := r.result }

/-- The chunk threshold hard-coded at line 34 of `sort.py`. -/
def chunkThreshold : Nat := 1000000

/-- The fault-free record-level behaviour of `sort`: the stream of records
written to the output sink, or the propagated error. -/
def sortRecords (input : List (List Byte)) :
    Except SortErr (List (List Byte)) :=
  (sortWithFaults chunkThreshold noFaults input).result

/-- The contents of the segment files written during a fault-free run. -/
def segmentsOf (T : Nat) (input : List (List Byte)) :
    List (List (List Byte)) :=
  (phase1 T noFaults (input.length + 1) input 0).2.1

/-! ## The byte-wise order -/

theorem bytesLt_cons_iff {x y : Byte} {xs ys : List Byte} :
    bytesLt (x :: xs) (y :: ys) = true ↔ x < y ∨ (x = y ∧ bytesLt xs ys = true) := by
  simp only [bytesLt]
  rcases Nat.lt_trichotomy x y with h | h | h
  · simp [h]
  · subst h
    simp [Nat.lt_irrefl]
  · simp only [if_neg (Nat.lt_asymm h), if_pos h]
    constructor
    · intro hc
      exact absurd hc (by simp)
    · rintro (hc | ⟨hc, -⟩)
      · exact absurd hc (Nat.lt_asymm h)
      · exact absurd (hc ▸ h) (Nat.lt_irrefl _)

theorem bytesLt_irrefl (a : List Byte) : bytesLt a a = false := by
  induction a with
  | nil => rfl
  | cons x xs ih => simp [bytesLt, ih]

theorem bytesLt_trans {a b c : List Byte} (hab : bytesLt a b = true)
    (hbc : bytesLt b c = true) : bytesLt a c = true := by
  induction a generalizing b c with
  | nil =>
    cases b with
    | nil => simp [bytesLt] at hab
    | cons y ys =>
      cases c with
      | nil => simp [bytesLt] at hbc
      | cons z zs => rfl
  | cons x xs ih =>
    cases b with
    | nil => simp [bytesLt] at hab
    | cons y ys =>
      cases c with
      | nil => simp [bytesLt] at hbc
      | cons z zs =>
        rw [bytesLt_cons_iff] at hab hbc ⊢
        rcases hab with h1 | ⟨h1, h1'⟩ <;> rcases hbc with h2 | ⟨h2, h2'⟩
        · exact Or.inl (Nat.lt_trans h1 h2)
        · exact Or.inl (h2 ▸ h1)
        · exact Or.inl (h1.symm ▸ h2)
        · exact Or.inr ⟨h1.trans h2, ih h1' h2'⟩

theorem bytesLt_conn : ∀ {a b : List Byte},
    bytesLt a b = false → bytesLt b a = false → a = b := by
  intro a
  induction a with
  | nil =>
    intro b h1 h2
    cases b with
    | nil => rfl
    | cons y ys => simp [bytesLt] at h1
  | cons x xs ih =>
    intro b h1 h2
    cases b with
    | nil => simp [bytesLt] at h2
    | cons y ys =>
      have h1' : ¬ (x < y ∨ (x = y ∧ bytesLt xs ys = true)) := by
        rw [← bytesLt_cons_iff]
        simp [h1]
      have h2' : ¬ (y < x ∨ (y = x ∧ bytesLt ys xs = true)) := by
        rw [← bytesLt_cons_iff]
        simp [h2]
      push_neg at h1' h2'
      have hxy : x = y := Nat.le_antisymm h2'.1 h1'.1
      subst hxy
      have hx1 : bytesLt xs ys = false := Bool.eq_false_iff.mpr (h1'.2 rfl)
      have hx2 : bytesLt ys xs = false := Bool.eq_false_iff.mpr (h2'.2 rfl)
      rw [ih hx1 hx2]

theorem bytesLt_asymm {a b : List Byte} (h : bytesLt a b = true) :
    bytesLt b a = false := by
  cases h2 : bytesLt b a with
  | false => rfl
  | true =>
    have := bytesLt_trans h h2
    rw [bytesLt_irrefl] at this
    exact absurd this (by simp)

theorem ble_iff {a b : List Byte} : ble a b ↔ bytesLt b a = false := by
  unfold ble bleB
  cases bytesLt b a <;> simp

theorem ble_refl (a : List Byte) : ble a a := ble_iff.mpr (bytesLt_irrefl a)

theorem ble_trans {a b c : List Byte} (h1 : ble a b) (h2 : ble b c) :
    ble a c := by
  rw [ble_iff] at h1 h2 ⊢
  cases h : bytesLt c a with
  | false => rfl
  | true =>
    cases hbc : bytesLt b c with
    | false =>
      have hcb : c = b := bytesLt_conn h2 hbc
      rw [hcb] at h
      exact absurd h (by simp [h1])
    | true =>
      have := bytesLt_trans hbc h
      exact absurd this (by simp [h1])

theorem ble_total (a b : List Byte) : ble a b ∨ ble b a := by
  rw [ble_iff, ble_iff]
  cases h : bytesLt b a with
  | false => exact Or.inl rfl
  | true => exact Or.inr (bytesLt_asymm h)

theorem ble_antisymm {a b : List Byte} (h1 : ble a b) (h2 : ble b a) :
    a = b :=
  bytesLt_conn (ble_iff.mp h2) (ble_iff.mp h1)

instance : IsTrans (List Byte) ble := ⟨fun _ _ _ => ble_trans⟩

instance : IsTotal (List Byte) ble := ⟨ble_total⟩

instance : IsAntisymm (List Byte) ble := ⟨fun _ _ => ble_antisymm⟩

instance : IsRefl (List Byte) ble := ⟨ble_refl⟩

/-! ## Chunk accumulation -/

/-- A successful chunk accumulation appends the consumed lines to the
accumulator, and the consumed lines followed by the unconsumed rest are
exactly the input. -/
theorem fillChunk_split {T : Nat} :
    ∀ {input chunk c rest : List (List Byte)},
      fillChunk T chunk input = .ok (c, rest) →
      ∃ taken, c = chunk ++ taken ∧ input = taken ++ rest := by
  intro input
  induction input with
  | nil =>
    intro chunk c rest h
    simp only [fillChunk, Except.ok.injEq, Prod.mk.injEq] at h
    exact ⟨[], by simp [h.1.symm], by simp [h.2.symm]⟩
  | cons line rest0 ih =>
    intro chunk c rest h
    simp only [fillChunk] at h
    by_cases hl : line.getLast? = some 10
    · rw [if_pos hl] at h
      by_cases hT : T ≤ (chunk ++ [line]).length
      · rw [if_pos hT] at h
        simp only [Except.ok.injEq, Prod.mk.injEq] at h
        exact ⟨[line], by simp [h.1.symm], by simp [h.2.symm]⟩
      · rw [if_neg hT] at h
        obtain ⟨taken, ht1, ht2⟩ := ih h
        exact ⟨line :: taken, by simp [ht1], by simp [ht2]⟩
    · rw [if_neg hl] at h
      exact absurd h (by simp)

/-- On input whose lines all end with the delimiter, chunk accumulation
never fails. -/
theorem fillChunk_ok_of_wf {T : Nat} :
    ∀ {input : List (List Byte)} (chunk : List (List Byte)),
      (∀ l ∈ input, l.getLast? = some 10) →
      ∃ c rest, fillChunk T chunk input = .ok (c, rest) := by
  intro input
  induction input with
  | nil => exact fun chunk _ => ⟨chunk, [], rfl⟩
  | cons line rest0 ih =>
    intro chunk wf
    have hl : line.getLast? = some 10 := wf line (by simp)
    by_cases hT : T ≤ (chunk ++ [line]).length
    · exact ⟨chunk ++ [line], rest0, by simp only [fillChunk, if_pos hl, if_pos hT]⟩
    · obtain ⟨c, rest, hc⟩ := ih (chunk ++ [line]) fun l hl' => wf l (by simp [hl'])
      exact ⟨c, rest, by simp only [fillChunk, if_pos hl, if_neg hT]; exact hc⟩

/-- A chunk accumulated from a nonempty input is strictly larger than the
accumulator it started from. -/
theorem fillChunk_grows {T : Nat} {line : List Byte}
    {rest0 chunk c rest : List (List Byte)}
    (h : fillChunk T chunk (line :: rest0) = .ok (c, rest)) :
    chunk.length < c.length := by
  simp only [fillChunk] at h
  by_cases hl : line.getLast? = some 10
  · rw [if_pos hl] at h
    by_cases hT : T ≤ (chunk ++ [line]).length
    · rw [if_pos hT] at h
      simp only [Except.ok.injEq, Prod.mk.injEq] at h
      simp [h.1.symm]
    · rw [if_neg hT] at h
      obtain ⟨taken, ht1, -⟩ := fillChunk_split h
      simp [ht1]
  · rw [if_neg hl] at h
    exact absurd h (by simp)

/-- Starting strictly below the threshold, an accumulated chunk never
exceeds the threshold (the loop re-checks the size after every append). -/
theorem fillChunk_bound {T : Nat} :
    ∀ {input chunk c rest : List (List Byte)}, chunk.length < T →
      fillChunk T chunk input = .ok (c, rest) → c.length ≤ T := by
  intro input
  induction input with
  | nil =>
    intro chunk c rest hlt h
    simp only [fillChunk, Except.ok.injEq, Prod.mk.injEq] at h
    rw [← h.1]
    omega
  | cons line rest0 ih =>
    intro chunk c rest hlt h
    simp only [fillChunk] at h
    by_cases hl : line.getLast? = some 10
    · rw [if_pos hl] at h
      by_cases hT : T ≤ (chunk ++ [line]).length
      · rw [if_pos hT] at h
        simp only [Except.ok.injEq, Prod.mk.injEq] at h
        rw [← h.1]
        simp only [List.length_append, List.length_cons, List.length_nil]
        omega
      · rw [if_neg hT] at h
        exact ih (by simp at hT ⊢; omega) h
    · rw [if_neg hl] at h
      exact absurd h (by simp)

/-- When the whole remaining input fits under the threshold, the loop
consumes it all and the rest is empty. -/
theorem fillChunk_all {T : Nat} :
    ∀ {input : List (List Byte)} (chunk : List (List Byte)),
      (∀ l ∈ input, l.getLast? = some 10) →
      chunk.length + input.length ≤ T →
      fillChunk T chunk input = .ok (chunk ++ input, []) := by
  intro input
  induction input with
  | nil => intro chunk _ _; simp [fillChunk]
  | cons line rest0 ih =>
    intro chunk wf hle
    have hl : line.getLast? = some 10 := wf line (by simp)
    simp only [fillChunk, if_pos hl]
    by_cases hT : T ≤ (chunk ++ [line]).length
    · rw [if_pos hT]
      have hrest : rest0 = [] := by
        rw [← List.length_eq_zero]
        simp only [List.length_append, List.length_cons, List.length_nil] at hT ⊢
        simp only [List.length_cons] at hle
        omega
      subst hrest
      simp
    · rw [if_neg hT]
      have := ih (chunk ++ [line]) (fun l hl' => wf l (by simp [hl']))
        (by simp only [List.length_append, List.length_cons, List.length_nil] at *; omega)
      rw [this]
      simp

/-- When at least `T - chunk.length` more lines are available, the loop
stops exactly at the threshold: it consumes `take (T - chunk.length)` and
leaves `drop (T - chunk.length)`. -/
theorem fillChunk_take {T : Nat} :
    ∀ {input : List (List Byte)} (chunk : List (List Byte)),
      (∀ l ∈ input, l.getLast? = some 10) →
      chunk.length < T → T ≤ chunk.length + input.length →
      fillChunk T chunk input =
        .ok (chunk ++ input.take (T - chunk.length),
             input.drop (T - chunk.length)) := by
  intro input
  induction input with
  | nil =>
    intro chunk _ hlt hge
    simp only [List.length_nil] at hge
    omega
  | cons line rest0 ih =>
    intro chunk wf hlt hge
    have hl : line.getLast? = some 10 := wf line (by simp)
    simp only [fillChunk, if_pos hl]
    by_cases hTle : T ≤ (chunk ++ [line]).length
    · rw [if_pos hTle]
      have h1 : T - chunk.length = 1 := by
        simp only [List.length_append, List.length_cons, List.length_nil] at hTle
        omega
      rw [h1]
      simp
    · rw [if_neg hTle]
      have hlt' : (chunk ++ [line]).length < T := by
        simp only [List.length_append, List.length_cons, List.length_nil] at hTle ⊢
        omega
      have hge' : T ≤ (chunk ++ [line]).length + rest0.length := by
        simp only [List.length_append, List.length_cons, List.length_nil] at *
        omega
      rw [ih (chunk ++ [line]) (fun l hl' => wf l (by simp [hl'])) hlt' hge']
      have hn : T - chunk.length = (T - (chunk ++ [line]).length) + 1 := by
        simp only [List.length_append, List.length_cons, List.length_nil]
        simp only [List.length_append, List.length_cons, List.length_nil] at hlt'
        omega
      rw [hn, List.take_succ_cons, List.drop_succ_cons]
      simp

/-! ## Phase one -/

theorem range_map_add_succ (n seq : Nat) :
    (List.range (n + 1)).map (seq + ·) =
      seq :: (List.range n).map ((seq + 1) + ·) := by
  rw [List.range_succ_eq_map]
  simp only [List.map_cons, List.map_map, Nat.add_zero]
  refine congrArg _ (List.map_congr_left fun x _ => ?_)
  simp [Function.comp]
  omega

/-- A fault-free phase one on delimiter-terminated input: it registers the
consecutive sequence numbers of the written segments, fails nowhere, every
segment is sorted, no segment exceeds a positive threshold, and — at every
point of the loop — the records written so far are a permutation of the
input consumed so far. -/
theorem phase1_spec (T : Nat) :
    ∀ (fuel : Nat) (input : List (List Byte)) (seq : Nat),
      input.length < fuel →
      (∀ l ∈ input, l.getLast? = some 10) →
      ∃ segs,
        phase1 T noFaults fuel input seq =
          ((List.range segs.length).map (seq + ·), segs, none) ∧
        segs.flatten.Perm input ∧
        (∀ s ∈ segs, List.Pairwise ble s) ∧
        (0 < T → ∀ s ∈ segs, s.length ≤ T) ∧
        (∀ k, ∃ consumed rest, input = consumed ++ rest ∧
          ((segs.take k).flatten).Perm consumed) := by
  intro fuel
  induction fuel with
  | zero => intro input seq h; exact absurd h (Nat.not_lt_zero _)
  | succ fuel ih =>
    intro input seq hfuel wf
    cases input with
    | nil =>
      refine ⟨[], rfl, List.Perm.refl _, by simp, by simp, fun k => ⟨[], [], rfl, ?_⟩⟩
      simp
    | cons line rest0 =>
      obtain ⟨c, rest, hfc⟩ := fillChunk_ok_of_wf (T := T) [] wf
      obtain ⟨taken, htaken, hsplit⟩ := fillChunk_split hfc
      simp only [List.nil_append] at htaken
      subst htaken
      have hcpos : 0 < c.length := fillChunk_grows hfc
      have hcne : c.isEmpty = false :=
        List.isEmpty_eq_false.mpr (by intro hc; rw [hc] at hcpos; simp at hcpos)
      have hrest_len : rest.length < fuel := by
        have := congrArg List.length hsplit
        simp only [List.length_cons, List.length_append] at this hfuel
        omega
      have hrest_wf : ∀ l ∈ rest, l.getLast? = some 10 := by
        intro l hl
        exact wf l (by rw [hsplit]; exact List.mem_append.mpr (Or.inr hl))
      obtain ⟨segs', heq', hperm', hsort', hbound', hpre'⟩ :=
        ih rest (seq + 1) hrest_len hrest_wf
      refine ⟨c.insertionSort ble :: segs', ?_, ?_, ?_, ?_, ?_⟩
      · have hnf : noFaults.writeFail seq = false := rfl
        simp only [phase1, hfc, hcne, hnf, Bool.false_eq_true, if_false,
          heq', List.length_cons]
        rw [range_map_add_succ]
      · rw [List.flatten_cons, hsplit]
        exact (List.perm_insertionSort ble c).append hperm'
      · intro s hs
        rcases List.mem_cons.mp hs with hs | hs
        · rw [hs]
          exact List.sorted_insertionSort ble c
        · exact hsort' s hs
      · intro hT s hs
        rcases List.mem_cons.mp hs with hs | hs
        · rw [hs, List.length_insertionSort]
          exact fillChunk_bound (by simpa using hT) hfc
        · exact hbound' hT s hs
      · intro k
        cases k with
        | zero => exact ⟨[], line :: rest0, rfl, by simp⟩
        | succ k =>
          obtain ⟨consumed', rest', hr, hp⟩ := hpre' k
          refine ⟨c ++ consumed', rest', ?_, ?_⟩
          · rw [hsplit, hr, List.append_assoc]
          · rw [List.take_succ_cons, List.flatten_cons]
            exact (List.perm_insertionSort ble c).append hp

/-! ## The merge engine -/

theorem selectMin_none : ∀ {rs : List (List (List Byte))},
    selectMin rs = none → ∀ l ∈ rs, l = [] := by
  intro rs
  induction rs with
  | nil => intro _ l hl; cases hl
  | cons r rest ih =>
    intro h l hl
    cases r with
    | nil =>
      simp only [selectMin, Option.map_eq_none'] at h
      rcases List.mem_cons.mp hl with hl | hl
      · exact hl
      · exact ih h l hl
    | cons x xs =>
      exfalso
      simp only [selectMin] at h
      cases hsel : selectMin rest with
      | none => rw [hsel] at h; simp at h
      | some p =>
        rw [hsel] at h
        obtain ⟨j, v⟩ := p
        dsimp only at h
        split at h <;> simp at h

/-- The reader selected by `selectMin` is nonempty with the selected record
at its frontier; no reader's frontier record is strictly smaller; and every
reader before the selected one has a strictly greater frontier record (so
among equal frontier records the smallest index wins). -/
theorem selectMin_spec : ∀ {rs : List (List (List Byte))} {j : Nat} {v : List Byte},
    selectMin rs = some (j, v) →
    (∃ tl, rs.get? j = some (v :: tl)) ∧
    (∀ i w tl, rs.get? i = some (w :: tl) → bytesLt w v = false) ∧
    (∀ i w tl, i < j → rs.get? i = some (w :: tl) → bytesLt v w = true) := by
  intro rs
  induction rs with
  | nil => intro j v h; simp [selectMin] at h
  | cons r rest ih =>
    intro j v h
    cases r with
    | nil =>
      simp only [selectMin] at h
      cases hsel : selectMin rest with
      | none => rw [hsel] at h; simp at h
      | some p =>
        rw [hsel] at h
        obtain ⟨j', v'⟩ := p
        simp only [Option.map_some', Option.some.injEq, Prod.mk.injEq] at h
        obtain ⟨hj, hv⟩ := h
        subst hj
        subst hv
        obtain ⟨⟨tl, hget⟩, h2, h3⟩ := ih hsel
        refine ⟨⟨tl, by simpa using hget⟩, ?_, ?_⟩
        · intro i w tl' hi
          cases i with
          | zero => simp at hi
          | succ i => exact h2 i w tl' (by simpa using hi)
        · intro i w tl' hilt hi
          cases i with
          | zero => simp at hi
          | succ i =>
            exact h3 i w tl' (Nat.lt_of_succ_lt_succ hilt) (by simpa using hi)
    | cons x xs =>
      simp only [selectMin] at h
      cases hsel : selectMin rest with
      | none =>
        rw [hsel] at h
        simp only [Option.some.injEq, Prod.mk.injEq] at h
        obtain ⟨hj, hv⟩ := h
        subst hj
        subst hv
        have hall := selectMin_none hsel
        refine ⟨⟨xs, rfl⟩, ?_, fun i w tl hilt _ => absurd hilt (Nat.not_lt_zero i)⟩
        intro i w tl hi
        cases i with
        | zero =>
          simp only [List.get?_cons_zero, Option.some.injEq, List.cons.injEq] at hi
          rw [← hi.1]
          exact bytesLt_irrefl x
        | succ i =>
          have : (w :: tl) ∈ rest := List.get?_mem (by simpa using hi)
          exact absurd (hall _ this) (by simp)
      | some p =>
        rw [hsel] at h
        obtain ⟨j', v'⟩ := p
        obtain ⟨⟨tl', hget⟩, h2, h3⟩ := ih hsel
        dsimp only at h
        by_cases hlt : bytesLt v' x = true
        · rw [if_pos hlt] at h
          simp only [Option.some.injEq, Prod.mk.injEq] at h
          obtain ⟨hj, hv⟩ := h
          subst hj
          subst hv
          refine ⟨⟨tl', by simpa using hget⟩, ?_, ?_⟩
          · intro i w tl hi
            cases i with
            | zero =>
              simp only [List.get?_cons_zero, Option.some.injEq, List.cons.injEq] at hi
              rw [← hi.1]
              exact bytesLt_asymm hlt
            | succ i => exact h2 i w tl (by simpa using hi)
          · intro i w tl hilt hi
            cases i with
            | zero =>
              simp only [List.get?_cons_zero, Option.some.injEq, List.cons.injEq] at hi
              rw [← hi.1]
              exact hlt
            | succ i =>
              exact h3 i w tl (Nat.lt_of_succ_lt_succ hilt) (by simpa using hi)
        · rw [if_neg hlt] at h
          have hv'x : bytesLt v' x = false := by
            cases hx : bytesLt v' x
            · rfl
            · exact absurd hx hlt
          simp only [Option.some.injEq, Prod.mk.injEq] at h
          obtain ⟨hj, hv⟩ := h
          subst hj
          subst hv
          refine ⟨⟨xs, rfl⟩, ?_, fun i w tl hilt _ => absurd hilt (Nat.not_lt_zero i)⟩
          intro i w tl hi
          cases i with
          | zero =>
            simp only [List.get?_cons_zero, Option.some.injEq, List.cons.injEq] at hi
            rw [← hi.1]
            exact bytesLt_irrefl x
          | succ i =>
            have hw : bytesLt w v' = false := h2 i w tl (by simpa using hi)
            cases hwx : bytesLt w x with
            | false => rfl
            | true =>
              exfalso
              cases hxv : bytesLt x v' with
              | false =>
                have hvx : v' = x := bytesLt_conn hv'x hxv
                rw [hvx] at hw
                exact absurd hwx (by simp [hw])
              | true =>
                exact absurd (bytesLt_trans hwx hxv) (by simp [hw])

theorem popAt_mem : ∀ {rs : List (List (List Byte))} {j : Nat}
    {l : List (List Byte)}, l ∈ popAt rs j →
    l ∈ rs ∨ ∃ l', rs.get? j = some l' ∧ l = l'.tail := by
  intro rs
  induction rs with
  | nil => intro j l hl; simp [popAt] at hl
  | cons r rest ih =>
    intro j l hl
    cases j with
    | zero =>
      simp only [popAt] at hl
      rcases List.mem_cons.mp hl with hl | hl
      · exact Or.inr ⟨r, rfl, hl⟩
      · exact Or.inl (List.mem_cons_of_mem r hl)
    | succ j =>
      simp only [popAt] at hl
      rcases List.mem_cons.mp hl with hl | hl
      · exact Or.inl (hl ▸ List.mem_cons_self r rest)
      · rcases ih hl with hl' | ⟨l', hg, ht⟩
        · exact Or.inl (List.mem_cons_of_mem r hl')
        · exact Or.inr ⟨l', by simpa using hg, ht⟩

theorem popAt_sum : ∀ {rs : List (List (List Byte))} {j : Nat}
    {v : List Byte} {tl : List (List Byte)}, rs.get? j = some (v :: tl) →
    ((popAt rs j).map List.length).sum + 1 = (rs.map List.length).sum := by
  intro rs
  induction rs with
  | nil => intro j v tl h; simp at h
  | cons r rest ih =>
    intro j v tl h
    cases j with
    | zero =>
      simp only [List.get?_cons_zero, Option.some.injEq] at h
      subst h
      simp only [popAt, List.map_cons, List.sum_cons, List.tail_cons,
        List.length_cons]
      omega
    | succ j =>
      simp only [List.get?_cons_succ] at h
      simp only [popAt, List.map_cons, List.sum_cons]
      have := ih h
      omega

theorem popAt_flatten : ∀ {rs : List (List (List Byte))} {j : Nat}
    {v : List Byte} {tl : List (List Byte)}, rs.get? j = some (v :: tl) →
    rs.flatten.Perm (v :: (popAt rs j).flatten) := by
  intro rs
  induction rs with
  | nil => intro j v tl h; simp at h
  | cons r rest ih =>
    intro j v tl h
    cases j with
    | zero =>
      simp only [List.get?_cons_zero, Option.some.injEq] at h
      subst h
      simp [popAt]
    | succ j =>
      simp only [List.get?_cons_succ] at h
      simp only [popAt, List.flatten_cons]
      exact ((ih h).append_left r).trans List.perm_middle

/-- The merged stream is a permutation of all buffered records. -/
theorem kMergeAux_perm : ∀ (fuel : Nat) (rs : List (List (List Byte))),
    (rs.map List.length).sum ≤ fuel →
    ((kMergeAux fuel rs).map Prod.snd).Perm rs.flatten := by
  intro fuel
  induction fuel with
  | zero =>
    intro rs h
    have hlen : rs.flatten.length = 0 := by rw [List.length_flatten]; omega
    rw [List.length_eq_zero] at hlen
    rw [hlen]
    simp [kMergeAux]
  | succ fuel ih =>
    intro rs h
    simp only [kMergeAux]
    cases hsel : selectMin rs with
    | none =>
      have hall := selectMin_none hsel
      rw [List.flatten_eq_nil_iff.mpr hall]
      simp
    | some p =>
      obtain ⟨j, v⟩ := p
      obtain ⟨⟨tl, hget⟩, -, -⟩ := selectMin_spec hsel
      have hsum := popAt_sum hget
      have hih := ih (popAt rs j) (by omega)
      simp only [List.map_cons]
      exact (hih.cons v).trans (popAt_flatten hget).symm

/-- If every reader is sorted, the merged stream is sorted. -/
theorem kMergeAux_sorted : ∀ (fuel : Nat) (rs : List (List (List Byte))),
    (rs.map List.length).sum ≤ fuel →
    (∀ l ∈ rs, List.Pairwise ble l) →
    List.Pairwise ble ((kMergeAux fuel rs).map Prod.snd) := by
  intro fuel
  induction fuel with
  | zero => intro rs _ _; simp [kMergeAux]
  | succ fuel ih =>
    intro rs h hsorted
    simp only [kMergeAux]
    cases hsel : selectMin rs with
    | none => simp
    | some p =>
      obtain ⟨j, v⟩ := p
      obtain ⟨⟨tl, hget⟩, h2, -⟩ := selectMin_spec hsel
      have hsum := popAt_sum hget
      have hpop_sorted : ∀ l ∈ popAt rs j, List.Pairwise ble l := by
        intro l hl
        rcases popAt_mem hl with hl' | ⟨l', hg, ht⟩
        · exact hsorted l hl'
        · rw [ht]
          exact (hsorted l' (List.get?_mem hg)).sublist (List.tail_sublist l')
      simp only [List.map_cons]
      rw [List.pairwise_cons]
      refine ⟨?_, ih (popAt rs j) (by omega) hpop_sorted⟩
      intro w hw
      have hperm := kMergeAux_perm fuel (popAt rs j) (by omega)
      have hwin : w ∈ (popAt rs j).flatten := hperm.mem_iff.mp hw
      obtain ⟨l, hlmem, hwl⟩ := List.mem_flatten.mp hwin
      rcases popAt_mem hlmem with hl' | ⟨l', hg, ht⟩
      · obtain ⟨i, hi⟩ := List.mem_iff_get?.mp hl'
        cases l with
        | nil => cases hwl
        | cons hd tlx =>
          have hvhd : ble v hd := ble_iff.mpr (h2 i hd tlx hi)
          rcases List.mem_cons.mp hwl with hww | hww
          · rw [hww]
            exact hvhd
          · exact ble_trans hvhd (List.rel_of_pairwise_cons (hsorted _ hl') hww)
      · rw [hg] at hget
        have hl'eq : l' = v :: tl := Option.some.inj hget
        rw [hl'eq] at ht
        simp only [List.tail_cons] at ht
        have hsrt := hsorted l' (List.get?_mem hg)
        rw [hl'eq] at hsrt
        exact List.rel_of_pairwise_cons hsrt (ht ▸ hwl)

/-- The record stream emitted by the merge is a permutation of the
concatenation of all segments. -/
theorem kMerge_perm (rs : List (List (List Byte))) :
    (kMerge rs).Perm rs.flatten :=
  kMergeAux_perm _ rs (Nat.le_refl _)

/-- The record stream emitted by the merge of sorted segments is sorted. -/
theorem kMerge_sorted (rs : List (List (List Byte)))
    (h : ∀ l ∈ rs, List.Pairwise ble l) :
    List.Pairwise ble (kMerge rs) :=
  kMergeAux_sorted _ rs (Nat.le_refl _) h

/-! ## The whole pipeline -/

/-- Fault-free `sort` on delimiter-terminated input succeeds and writes a
sorted permutation of the input records to the output sink. -/
theorem sortRecords_spec (input : List (List Byte))
    (wf : ∀ l ∈ input, l.getLast? = some 10) :
    ∃ out, sortRecords input = .ok out ∧ out.Perm input ∧
      List.Pairwise ble out := by
  obtain ⟨segs, heq, hperm, hsort, -, -⟩ :=
    phase1_spec chunkThreshold (input.length + 1) input 0
      (Nat.lt_succ_self _) wf
  refine ⟨kMerge segs, ?_, (kMerge_perm segs).trans hperm,
    kMerge_sorted segs hsort⟩
  simp only [sortRecords, sortWithFaults, heq]

/-- If the trailing fragment of the input lacks the delimiter, chunk
accumulation either hits the failed assertion now or stops at the
threshold leaving a strictly shorter rest that still carries the
malformed trailing fragment. -/
theorem fillChunk_malformed {T : Nat} :
    ∀ {input : List (List Byte)} {last : List Byte}
      (chunk : List (List Byte)),
      (∀ l ∈ input.dropLast, l.getLast? = some 10) →
      input.getLast? = some last →
      last.getLast? ≠ some 10 →
      fillChunk T chunk input = .error () ∨
      ∃ c rest, fillChunk T chunk input = .ok (c, rest) ∧
        rest.getLast? = some last ∧
        (∀ l ∈ rest.dropLast, l.getLast? = some 10) ∧
        rest.length < input.length := by
  intro input
  induction input with
  | nil => intro last _ _ hlast _; simp at hlast
  | cons line rest0 ih =>
    intro last chunk hwf hlast hmal
    cases rest0 with
    | nil =>
      have hline : line = last := by simpa using hlast
      subst hline
      left
      simp only [fillChunk, if_neg hmal]
    | cons r0 rr =>
      have hl : line.getLast? = some 10 := by
        apply hwf
        rw [List.dropLast_cons₂]
        exact List.mem_cons_self _ _
      have hwf' : ∀ l ∈ (r0 :: rr).dropLast, l.getLast? = some 10 := by
        intro l hl'
        apply hwf
        rw [List.dropLast_cons₂]
        exact List.mem_cons_of_mem _ hl'
      have hlast' : (r0 :: rr).getLast? = some last := by
        rw [← List.getLast?_cons_cons (a := line)]
        exact hlast
      simp only [fillChunk, if_pos hl]
      by_cases hT : T ≤ (chunk ++ [line]).length
      · rw [if_pos hT]
        exact Or.inr ⟨chunk ++ [line], r0 :: rr, rfl, hlast', hwf', by simp⟩
      · rw [if_neg hT]
        rcases ih (chunk ++ [line]) hwf' hlast' hmal with h | ⟨c, rest, hok, p1, p2, p3⟩
        · exact Or.inl h
        · exact Or.inr ⟨c, rest, hok, p1, p2, Nat.lt_trans p3 (by simp)⟩

/-- Phase one on input whose trailing fragment lacks the delimiter always
aborts with the assertion failure. -/
theorem phase1_malformed (T : Nat) :
    ∀ (fuel : Nat) (input : List (List Byte)) (seq : Nat)
      {last : List Byte},
      input.length < fuel →
      (∀ l ∈ input.dropLast, l.getLast? = some 10) →
      input.getLast? = some last →
      last.getLast? ≠ some 10 →
      (phase1 T noFaults fuel input seq).2.2 = some .malformed := by
  intro fuel
  induction fuel with
  | zero => intro input seq _ h; exact absurd h (Nat.not_lt_zero _)
  | succ fuel ih =>
    intro input seq last hfuel hwf hlast hmal
    rcases fillChunk_malformed (T := T) [] hwf hlast hmal
      with herr | ⟨c, rest, hok, p1, p2, p3⟩
    · simp only [phase1, herr]
    · cases input with
      | nil => simp at hlast
      | cons line rest0 =>
        have hcpos := fillChunk_grows hok
        have hcne : c.isEmpty = false :=
          List.isEmpty_eq_false.mpr
            (by intro hc; rw [hc] at hcpos; simp at hcpos)
        have hnf : noFaults.writeFail seq = false := rfl
        simp only [phase1, hok, hcne, Bool.false_eq_true, if_false, hnf]
        exact ih rest (seq + 1)
          (by simp only [List.length_cons] at hfuel p3; omega) p2 p1 hmal

/-! ## Fault paths and cleanup -/

theorem phase1_nil_input (T : Nat) (f : Faults) (fuel seq : Nat) :
    phase1 T f fuel [] seq = ([], [], none) := by
  cases fuel <;> rfl

/-- Phase one only consults the write-fault component of the oracle. -/
theorem phase1_writeFail_congr (T : Nat) {f g : Faults}
    (h : f.writeFail = g.writeFail) :
    ∀ (fuel : Nat) (input : List (List Byte)) (seq : Nat),
      phase1 T f fuel input seq = phase1 T g fuel input seq := by
  intro fuel
  induction fuel with
  | zero => intro input seq; rfl
  | succ fuel ih => intro input seq; simp only [phase1, h, ih]

/-- The `finally` loop attempts to unlink every registered path — a caught
deletion failure never stops it — and logs exactly the failing ones. -/
theorem cleanupLoop_spec (f : Faults) :
    ∀ ps : List Nat, cleanupLoop f ps = (ps, ps.filter f.unlinkFail) := by
  intro ps
  induction ps with
  | nil => rfl
  | cons p rest ih =>
    simp only [cleanupLoop, ih, List.filter_cons]

/-- A single-chunk run of phase one: all of the input fits under the
threshold, so it is written as exactly one segment. -/
theorem phase1_single (T : Nat) {input : List (List Byte)}
    (fuel seq : Nat) (hpos : 0 < input.length) (hle : input.length ≤ T)
    (hfuel : input.length < fuel)
    (wf : ∀ l ∈ input, l.getLast? = some 10) :
    phase1 T noFaults fuel input seq =
      ([seq], [input.insertionSort ble], none) := by
  cases fuel with
  | zero => exact absurd hfuel (Nat.not_lt_zero _)
  | succ fuel =>
    have hfc : fillChunk T [] input = .ok (input, []) := by
      have := fillChunk_all [] wf (by simpa using hle)
      simpa using this
    have hcne : input.isEmpty = false :=
      List.isEmpty_eq_false.mpr
        (by intro hc; rw [hc] at hpos; simp at hpos)
    have hnf : noFaults.writeFail seq = false := rfl
    simp only [phase1, hfc, hcne, Bool.false_eq_true, if_false, hnf,
      phase1_nil_input]

/-- If the writes of segments `0..i-1` succeed and the write of segment `i`
fails, phase one registers exactly the sequence numbers `seq..seq+i` — the
failing segment's number included, since the path is registered before the
write — and aborts with that write's error. -/
theorem phase1_ioWrite (T : Nat) (f : Faults) (hT : 0 < T) :
    ∀ (i fuel : Nat) (input : List (List Byte)) (seq : Nat),
      input.length < fuel →
      (∀ l ∈ input, l.getLast? = some 10) →
      (∀ j, j < i → f.writeFail (seq + j) = false) →
      f.writeFail (seq + i) = true →
      i * T < input.length →
      ∃ segs, phase1 T f fuel input seq =
        ((List.range (i + 1)).map (seq + ·), segs,
          some (.ioWrite (seq + i))) := by
  intro i
  induction i with
  | zero =>
    intro fuel input seq hfuel wf hok hfail hlen
    cases fuel with
    | zero => exact absurd hfuel (Nat.not_lt_zero _)
    | succ fuel =>
      cases input with
      | nil => simp at hlen
      | cons line rest0 =>
        obtain ⟨c, rest, hfc⟩ := fillChunk_ok_of_wf (T := T) [] wf
        have hcpos := fillChunk_grows hfc
        have hcne : c.isEmpty = false :=
          List.isEmpty_eq_false.mpr
            (by intro hc; rw [hc] at hcpos; simp at hcpos)
        have hf : f.writeFail seq = true := by simpa using hfail
        refine ⟨[], ?_⟩
        have hr1 : List.range 1 = [0] := rfl
        simp only [phase1, hfc, hcne, Bool.false_eq_true, if_false, hf,
          if_true, Nat.zero_add, hr1, List.map_cons, List.map_nil,
          Nat.add_zero]
  | succ i ih =>
    intro fuel input seq hfuel wf hok hfail hlen
    cases fuel with
    | zero => exact absurd hfuel (Nat.not_lt_zero _)
    | succ fuel =>
      have hTle : T ≤ input.length := by
        have h1 : T ≤ (i + 1) * T := Nat.le_mul_of_pos_left T (Nat.succ_pos i)
        exact Nat.le_of_lt (Nat.lt_of_le_of_lt h1 hlen)
      have hfc : fillChunk T [] input = .ok (input.take T, input.drop T) := by
        have := fillChunk_take [] wf (by simpa using hT)
          (by simpa using hTle)
        simpa using this
      have htpos : 0 < (input.take T).length := by
        rw [List.length_take]
        exact lt_min hT (Nat.lt_of_lt_of_le hT hTle)
      have htne : (input.take T).isEmpty = false :=
        List.isEmpty_eq_false.mpr
          (by intro hc; rw [hc] at htpos; simp at htpos)
      have hf0 : f.writeFail seq = false := by
        have := hok 0 (Nat.succ_pos i)
        simpa using this
      have hlen' : i * T < (input.drop T).length := by
        rw [List.length_drop]
        exact Nat.lt_sub_of_add_lt (by rw [← Nat.succ_mul]; exact hlen)
      have hfuel' : (input.drop T).length < fuel := by
        rw [List.length_drop]
        omega
      obtain ⟨segs', heq'⟩ := ih fuel (input.drop T) (seq + 1) hfuel'
        (fun l hl => wf l (List.mem_of_mem_drop hl))
        (fun j hj => by
          have h := hok (j + 1) (Nat.succ_lt_succ hj)
          rwa [show seq + (j + 1) = seq + 1 + j by omega] at h)
        (by rwa [show seq + 1 + i = seq + (i + 1) by omega]) hlen'
      refine ⟨(input.take T).insertionSort ble :: segs', ?_⟩
      simp only [phase1, hfc, htne, Bool.false_eq_true, if_false, hf0, heq']
      conv_rhs => rw [range_map_add_succ]
      rw [show seq + (i + 1) = seq + 1 + i by omega]

/-- Permutations preserve record counts (stated with the `BEq` instance
used throughout this file). -/
theorem perm_count_eq {l₁ l₂ : List (List Byte)} (h : l₁.Perm l₂)
    (a : List Byte) : l₁.count a = l₂.count a := by
  induction h with
  | nil => rfl
  | cons x _ ih => simp [List.count_cons, ih]
  | swap x y l => simp only [List.count_cons]; omega
  | trans _ _ ih1 ih2 => rw [ih1, ih2]

/-! ## The claims -/

/-- **C1.** For every finite input stream of delimiter-terminated records,
`sort(input_stream, output_stream, temp_dir)` writes to the output sink
exactly the same multiset of records as the input (a permutation —
duplicates preserved, count-exact), arranged in ascending byte-wise
order. -/
theorem c1_sorted_permutation (input : List (List Byte))
    (wf : ∀ l ∈ input, validRecord l) :
    ∃ out, sortRecords input = .ok out ∧ out.Perm input ∧
      List.Pairwise ble out :=
  sortRecords_spec input fun l hl => (wf l hl).1

theorem c1_witness :
    ∃ out, sortRecords [[98, 10], [97, 10], [97, 10]] = .ok out ∧
      out.Perm [[98, 10], [97, 10], [97, 10]] ∧ List.Pairwise ble out :=
  c1_sorted_permutation [[98, 10], [97, 10], [97, 10]] (by decide)

/-- **C2 (counterexample).** The claim — the emission order of any two
records is governed by delimiter-excluded comparison of their contents —
is false on the code: for the records `b"\n"` (empty content) and
`b"\x00\n"` (content `b"\x00"`) the content order puts `b"\n"` first, yet
`sort` emits `b"\x00\n"` first, because `chunk.sort()` and `heapq.merge`
compare whole lines with the delimiter byte included. -/
theorem c2_counterexample :
    ¬ (∀ (input out : List (List Byte)) (a b : List Byte) (i j : Nat),
        (∀ l ∈ input, validRecord l) →
        sortRecords input = .ok out →
        out.get? i = some a → out.get? j = some b →
        specContentLt a b = true → i < j) := by
  intro h
  have := h [[10], [0, 10]] [[0, 10], [10]] [10] [0, 10] 1 0
    (by decide) rfl rfl rfl rfl
  exact absurd this (by decide)

/-- **C2 (amended).** The order in which `sort` emits any two records is
determined by byte-wise lexicographic comparison of the whole record with
the delimiter byte included in the comparison: whenever record `a` is
strictly below record `b` in that order, every occurrence of `a` is
emitted before every occurrence of `b`.  (This agrees with the
delimiter-excluded comparison except when one content is a proper prefix
of the other and the longer content continues with a byte below `0x0A`.) -/
theorem c2_order_includes_delimiter (input out : List (List Byte))
    (a b : List Byte) (i j : Nat)
    (wf : ∀ l ∈ input, validRecord l)
    (hout : sortRecords input = .ok out)
    (hi : out.get? i = some a) (hj : out.get? j = some b)
    (hab : bytesLt a b = true) : i < j := by
  obtain ⟨out', hout', -, hsort⟩ :=
    sortRecords_spec input (fun l hl => (wf l hl).1)
  rw [hout] at hout'
  have heq : out = out' := Except.ok.inj hout'
  subst heq
  by_contra hcon
  have hji : j ≤ i := Nat.le_of_not_lt hcon
  rcases Nat.eq_or_lt_of_le hji with heq2 | hlt2
  · rw [← heq2] at hi
    rw [hi] at hj
    have hba : a = b := Option.some.inj hj
    rw [← hba] at hab
    rw [bytesLt_irrefl] at hab
    exact absurd hab (by simp)
  · obtain ⟨hilen, hig⟩ := List.get?_eq_some.mp hi
    obtain ⟨hjlen, hjg⟩ := List.get?_eq_some.mp hj
    have hrel := List.pairwise_iff_get.mp hsort ⟨j, hjlen⟩ ⟨i, hilen⟩ hlt2
    rw [hig, hjg] at hrel
    have := ble_iff.mp hrel
    rw [hab] at this
    exact absurd this (by simp)

theorem c2_order_includes_delimiter_witness :
    sortRecords [[98, 10], [97, 10]] = .ok [[97, 10], [98, 10]] ∧
      (0 : Nat) < 1 :=
  ⟨rfl, c2_order_includes_delimiter [[98, 10], [97, 10]]
    [[97, 10], [98, 10]] [97, 10] [98, 10] 0 1
    (by decide) rfl rfl rfl rfl⟩

/-- **C3.** On every exit path of a `sort` invocation — normal return as
well as a propagated error from any phase — deletion is attempted for
every segment path registered during the invocation, in order, and then
removal of the temporary directory itself is attempted; each individual
deletion failure is caught and logged, stops no further deletion attempt,
never turns an otherwise-successful invocation into a failure, and never
suppresses the original triggering error: the result and the registered
paths are independent of the unlink/rmdir components of the fault
oracle. -/
theorem c3_cleanup_on_every_path (T : Nat) (f g : Faults)
    (input : List (List Byte)) (hw : f.writeFail = g.writeFail) :
    (sortWithFaults T f input).unlinkAttempts =
      (sortWithFaults T f input).created ∧
    (sortWithFaults T f input).loggedFailures =
      (sortWithFaults T f input).created.filter f.unlinkFail ∧
    (sortWithFaults T f input).result = (sortWithFaults T g input).result ∧
    (sortWithFaults T f input).created =
      (sortWithFaults T g input).created ∧
    (mainWithFaults T f input).dirDeleteAttempted = true := by
  have hc := phase1_writeFail_congr T hw (input.length + 1) input 0
  refine ⟨?_, ?_, ?_, ?_, rfl⟩
  · simp only [sortWithFaults, cleanupLoop_spec]
  · simp only [sortWithFaults, cleanupLoop_spec]
  · simp only [sortWithFaults, hc]
  · simp only [sortWithFaults, hc]

theorem c3_witness :
    (sortWithFaults 1 ⟨fun _ => false, fun _ => true, true⟩
        [[97, 10]]).unlinkAttempts =
      (sortWithFaults 1 ⟨fun _ => false, fun _ => true, true⟩
        [[97, 10]]).created ∧
    (sortWithFaults 1 ⟨fun _ => false, fun _ => true, true⟩
        [[97, 10]]).loggedFailures =
      (sortWithFaults 1 ⟨fun _ => false, fun _ => true, true⟩
        [[97, 10]]).created.filter (fun _ => true) ∧
    (sortWithFaults 1 ⟨fun _ => false, fun _ => true, true⟩
        [[97, 10]]).result =
      (sortWithFaults 1 ⟨fun _ => false, fun _ => false, false⟩
        [[97, 10]]).result ∧
    (sortWithFaults 1 ⟨fun _ => false, fun _ => true, true⟩
        [[97, 10]]).created =
      (sortWithFaults 1 ⟨fun _ => false, fun _ => false, false⟩
        [[97, 10]]).created ∧
    (mainWithFaults 1 ⟨fun _ => false, fun _ => true, true⟩
        [[97, 10]]).dirDeleteAttempted = true :=
  c3_cleanup_on_every_path 1 ⟨fun _ => false, fun _ => true, true⟩
    ⟨fun _ => false, fun _ => false, false⟩ [[97, 10]] rfl

/-- **C4.** Each segment's path is registered for cleanup before the write
to that path begins: if the write of segment `i` fails (all earlier writes
succeeding) while more than `i * T` records are available, the invocation
propagates that fatal write error, and cleanup still attempts deletion of
every previously written segment's file and of segment `i`'s own partially
written file — the registered and unlink-attempted paths are exactly the
sequence numbers `0, …, i`. -/
theorem c4_register_before_write (T : Nat) (f : Faults) (i : Nat)
    (input : List (List Byte)) (hT : 0 < T)
    (wf : ∀ l ∈ input, validRecord l)
    (hok : ∀ j, j < i → f.writeFail j = false)
    (hfail : f.writeFail i = true)
    (hlen : i * T < input.length) :
    (sortWithFaults T f input).result = .error (.ioWrite i) ∧
    (sortWithFaults T f input).created = List.range (i + 1) ∧
    (sortWithFaults T f input).unlinkAttempts = List.range (i + 1) := by
  obtain ⟨segs, heq⟩ := phase1_ioWrite T f hT i (input.length + 1) input 0
    (Nat.lt_succ_self _) (fun l hl => (wf l hl).1)
    (fun j hj => by simpa using hok j hj)
    (by simpa using hfail) hlen
  refine ⟨?_, ?_, ?_⟩ <;>
    simp only [sortWithFaults, heq, cleanupLoop_spec, Nat.zero_add,
      List.map_id']

theorem c4_witness :
    (sortWithFaults 1 ⟨fun n => n == 1, fun _ => false, false⟩
        [[97, 10], [98, 10]]).result = .error (.ioWrite 1) ∧
    (sortWithFaults 1 ⟨fun n => n == 1, fun _ => false, false⟩
        [[97, 10], [98, 10]]).created = List.range 2 ∧
    (sortWithFaults 1 ⟨fun n => n == 1, fun _ => false, false⟩
        [[97, 10], [98, 10]]).unlinkAttempts = List.range 2 :=
  c4_register_before_write 1 ⟨fun n => n == 1, fun _ => false, false⟩ 1
    [[97, 10], [98, 10]] (by decide) (by decide) (by decide) (by decide)
    (by decide)

/-- **C5.** If the final buffered fragment of the input stream does not end
with the delimiter byte, `sort` raises the fatal assertion error — the
fragment is neither silently dropped nor emitted completed; if every
record ends with the delimiter, this error branch is never taken and the
call succeeds. -/
theorem c5_trailing_fragment (input : List (List Byte))
    (wfinit : ∀ l ∈ input.dropLast, l.getLast? = some 10) :
    ((∃ last, input.getLast? = some last ∧ last.getLast? ≠ some 10) →
      sortRecords input = .error .malformed) ∧
    ((∀ l ∈ input, l.getLast? = some 10) →
      ∃ out, sortRecords input = .ok out) := by
  constructor
  · rintro ⟨last, hlast, hmal⟩
    have h22 := phase1_malformed chunkThreshold (input.length + 1) input 0
      (Nat.lt_succ_self _) wfinit hlast hmal
    simp only [sortRecords, sortWithFaults, h22]
  · intro wf
    obtain ⟨out, hok, -, -⟩ := sortRecords_spec input wf
    exact ⟨out, hok⟩

theorem c5_witness :
    sortRecords [[97, 10], [97]] = .error .malformed ∧
    ∃ out, sortRecords [[98, 10]] = .ok out :=
  ⟨(c5_trailing_fragment [[97, 10], [97]] (by decide)).1
      ⟨[97], rfl, by decide⟩,
    (c5_trailing_fragment [[98, 10]] (by decide)).2 (by decide)⟩

/-- **C6.** With the chunk threshold hard-coded at 1,000,000: an input of
exactly that many records causes exactly one segment file to be created, an
input of one more record causes exactly two, and an empty input creates
zero segment files and produces empty output. -/
theorem c6_segment_counts (input : List (List Byte))
    (wf : ∀ l ∈ input, validRecord l) :
    (input.length = chunkThreshold →
      (segmentsOf chunkThreshold input).length = 1) ∧
    (input.length = chunkThreshold + 1 →
      (segmentsOf chunkThreshold input).length = 2) ∧
    (input = [] → segmentsOf chunkThreshold input = [] ∧
      sortRecords input = .ok []) := by
  have wf' : ∀ l ∈ input, l.getLast? = some 10 := fun l hl => (wf l hl).1
  refine ⟨?_, ?_, ?_⟩
  · intro hlen
    have h := phase1_single chunkThreshold (input.length + 1) 0
      (by rw [hlen]; decide) (by rw [hlen]) (Nat.lt_succ_self _) wf'
    simp [segmentsOf, h]
  · intro hlen
    have hT : (0 : Nat) < chunkThreshold := by decide
    have hTle : chunkThreshold ≤ input.length := by
      rw [hlen]
      exact Nat.le_succ _
    have hfc : fillChunk chunkThreshold [] input =
        .ok (input.take chunkThreshold, input.drop chunkThreshold) := by
      have := fillChunk_take [] wf' (by simpa using hT) (by simpa using hTle)
      simpa using this
    have hdlen : (input.drop chunkThreshold).length = 1 := by
      rw [List.length_drop, hlen]
      omega
    have h2 := @phase1_single chunkThreshold (input.drop chunkThreshold)
      input.length 1 (by rw [hdlen]; decide) (by rw [hdlen]; decide)
      (by rw [hdlen, hlen]; decide)
      (fun l hl => wf' l (List.mem_of_mem_drop hl))
    have htpos : 0 < (input.take chunkThreshold).length := by
      rw [List.length_take, hlen, min_eq_left (Nat.le_succ chunkThreshold)]
      decide
    have htne : (input.take chunkThreshold).isEmpty = false :=
      List.isEmpty_eq_false.mpr
        (by intro hc; rw [hc] at htpos; simp at htpos)
    have hnf : noFaults.writeFail 0 = false := rfl
    simp only [segmentsOf, phase1, hfc, htne, Bool.false_eq_true, if_false,
      hnf, Nat.zero_add, h2]
    rfl
  · intro hnil
    subst hnil
    exact ⟨by simp [segmentsOf, phase1_nil_input], rfl⟩

theorem c6_witness :
    (segmentsOf chunkThreshold (List.replicate 1000000 [10])).length = 1 ∧
    (segmentsOf chunkThreshold (List.replicate 1000001 [10])).length = 2 ∧
    (segmentsOf chunkThreshold ([] : List (List Byte)) = [] ∧
      sortRecords [] = .ok []) :=
  ⟨(c6_segment_counts (List.replicate 1000000 [10])
      (fun l hl => by rw [List.eq_of_mem_replicate hl]; decide)).1
      (by rw [List.length_replicate]; rfl),
    (c6_segment_counts (List.replicate 1000001 [10])
      (fun l hl => by rw [List.eq_of_mem_replicate hl]; decide)).2.1
      (by rw [List.length_replicate]; rfl),
    (c6_segment_counts [] (by simp)).2.2 rfl⟩

/-- **C7.** Whenever the frontier records of two or more open segment
readers compare equal, the record emitted next by the merge is taken from
the segment with the smallest sequence number: the selected reader holds
the emitted record at its frontier, no frontier record is strictly below
it, and every reader with a smaller sequence number has a strictly greater
frontier record.  The untagged merge used by `sort` is the projection of
this provenance-annotated merge, so the annotated output is a function of
the segments alone. -/
theorem c7_tie_break (rs : List (List (List Byte))) (j : Nat)
    (v : List Byte) (rest : List (Nat × List Byte))
    (h : kMergeTagged rs = (j, v) :: rest) :
    (∃ tl, rs.get? j = some (v :: tl)) ∧
    (∀ i w tl, rs.get? i = some (w :: tl) → bytesLt w v = false) ∧
    (∀ i w tl, i < j → rs.get? i = some (w :: tl) → bytesLt v w = true) ∧
    kMerge rs = (kMergeTagged rs).map Prod.snd := by
  have hsel : selectMin rs = some (j, v) := by
    unfold kMergeTagged at h
    cases hs : (rs.map List.length).sum with
    | zero =>
      rw [hs] at h
      simp [kMergeAux] at h
    | succ n =>
      rw [hs] at h
      simp only [kMergeAux] at h
      cases hsel : selectMin rs with
      | none => rw [hsel] at h; simp at h
      | some p =>
        obtain ⟨j', v'⟩ := p
        rw [hsel] at h
        simp only [List.cons.injEq, Prod.mk.injEq] at h
        obtain ⟨⟨hj, hv⟩, -⟩ := h
        subst hj
        subst hv
        rfl
  obtain ⟨h1, h2, h3⟩ := selectMin_spec hsel
  exact ⟨h1, h2, h3, rfl⟩

theorem c7_witness :
    (∃ tl, [[[97, 10]], [[97, 10]]].get? 0 = some ([97, 10] :: tl)) ∧
    (∀ i w tl, [[[97, 10]], [[97, 10]]].get? i = some (w :: tl) →
      bytesLt w [97, 10] = false) ∧
    (∀ i w tl, i < 0 → [[[97, 10]], [[97, 10]]].get? i = some (w :: tl) →
      bytesLt [97, 10] w = true) ∧
    kMerge [[[97, 10]], [[97, 10]]] =
      (kMergeTagged [[[97, 10]], [[97, 10]]]).map Prod.snd :=
  c7_tie_break [[[97, 10]], [[97, 10]]] 0 [97, 10] [(1, [97, 10])] rfl

/-- **C8.** Throughout phase one: no segment (hence no accumulated chunk —
they have the same records) exceeds the threshold; every segment written
to disk has its records in ascending order; and at every point the
multiset union of the segments written so far equals the multiset of the
input records consumed into written chunks so far, duplicates preserved. -/
theorem c8_phase_one_invariants (input : List (List Byte))
    (wf : ∀ l ∈ input, validRecord l) :
    (∀ s ∈ segmentsOf chunkThreshold input, s.length ≤ chunkThreshold) ∧
    (∀ s ∈ segmentsOf chunkThreshold input, List.Pairwise ble s) ∧
    (segmentsOf chunkThreshold input).flatten.Perm input ∧
    (∀ k, ∃ consumed rest, input = consumed ++ rest ∧
      (((segmentsOf chunkThreshold input).take k).flatten).Perm consumed) := by
  obtain ⟨segs, heq, hperm, hsort, hbound, hpre⟩ :=
    phase1_spec chunkThreshold (input.length + 1) input 0
      (Nat.lt_succ_self _) (fun l hl => (wf l hl).1)
  have hseg : segmentsOf chunkThreshold input = segs := by
    simp [segmentsOf, heq]
  rw [hseg]
  exact ⟨hbound (by decide), hsort, hperm, hpre⟩

theorem c8_witness :
    (∀ s ∈ segmentsOf chunkThreshold [[98, 10], [97, 10]],
      s.length ≤ chunkThreshold) ∧
    (∀ s ∈ segmentsOf chunkThreshold [[98, 10], [97, 10]],
      List.Pairwise ble s) ∧
    (segmentsOf chunkThreshold [[98, 10], [97, 10]]).flatten.Perm
      [[98, 10], [97, 10]] ∧
    (∀ k, ∃ consumed rest, [[98, 10], [97, 10]] = consumed ++ rest ∧
      (((segmentsOf chunkThreshold [[98, 10], [97, 10]]).take k).flatten).Perm
        consumed) :=
  c8_phase_one_invariants [[98, 10], [97, 10]] (by decide)

/-- **C9.** Sorting an already-sorted stream (sorted in the ascending
order the engine itself produces) reproduces it unchanged; equivalently,
`sort` composed with itself equals `sort`: whatever output a run produces,
running `sort` on that output returns it verbatim. -/
theorem c9_idempotent (input : List (List Byte))
    (wf : ∀ l ∈ input, validRecord l)
    (hsorted : List.Pairwise ble input) :
    sortRecords input = .ok input ∧
    (∀ out, sortRecords input = .ok out → sortRecords out = .ok out) := by
  have main : ∀ inp : List (List Byte),
      (∀ l ∈ inp, l.getLast? = some 10) → List.Pairwise ble inp →
      sortRecords inp = .ok inp := by
    intro inp hwf hs
    obtain ⟨out, hok, hperm, hos⟩ := sortRecords_spec inp hwf
    have hoe : out = inp := List.eq_of_perm_of_sorted hperm hos hs
    rw [hoe] at hok
    exact hok
  refine ⟨main input (fun l hl => (wf l hl).1) hsorted, ?_⟩
  intro out hout
  have h1 := main input (fun l hl => (wf l hl).1) hsorted
  rw [h1] at hout
  have hoe : input = out := Except.ok.inj hout
  rw [← hoe]
  exact h1

theorem c9_witness :
    sortRecords [[97, 10], [98, 10]] = .ok [[97, 10], [98, 10]] ∧
    (∀ out, sortRecords [[97, 10], [98, 10]] = .ok out →
      sortRecords out = .ok out) :=
  c9_idempotent [[97, 10], [98, 10]] (by decide) (by decide)

/-- **C10.** A record with empty content — the line consisting of only the
delimiter byte — is accepted at the public interface without error: it has
the valid record shape (so it passes the `endswith` assertion), it
occupies a buffered-record slot like any other record (the segment sizes
sum to the number of input records), and it appears in the output exactly
as many times as in the input. -/
theorem c10_empty_content_record (input : List (List Byte))
    (wf : ∀ l ∈ input, validRecord l) :
    validRecord [10] ∧
    (∃ out, sortRecords input = .ok out ∧
      out.count [10] = input.count [10]) ∧
    ((segmentsOf chunkThreshold input).map List.length).sum =
      input.length := by
  refine ⟨by decide, ?_, ?_⟩
  · obtain ⟨out, hok, hperm, -⟩ :=
      sortRecords_spec input (fun l hl => (wf l hl).1)
    exact ⟨out, hok, perm_count_eq hperm _⟩
  · obtain ⟨segs, heq, hperm, -, -, -⟩ :=
      phase1_spec chunkThreshold (input.length + 1) input 0
        (Nat.lt_succ_self _) (fun l hl => (wf l hl).1)
    have hseg : segmentsOf chunkThreshold input = segs := by
      simp [segmentsOf, heq]
    rw [hseg, ← List.length_flatten]
    exact hperm.length_eq

theorem c10_witness :
    validRecord [10] ∧
    (∃ out, sortRecords [[10], [97, 10], [10]] = .ok out ∧
      out.count [10] = [[10], [97, 10], [10]].count [10]) ∧
    ((segmentsOf chunkThreshold [[10], [97, 10], [10]]).map
      List.length).sum = [[10], [97, 10], [10]].length :=
  c10_empty_content_record [[10], [97, 10], [10]] (by decide)

end ExtSort
